import Mathlib

/-!
Verification development for a Markov-switching dynamic regression system.
The repository ships a notebook exercising the system; the algorithmic
components (Parameter Transform, Regime Likelihood Engine, Hamilton Filter,
Kim Smoother, Likelihood-Based Estimator, Regime Duration Calculator) are
modelled from the specification, since only their call sites appear in the
repository.  The transition matrix is column stochastic: entry P i j is the
probability of moving to regime i given previous regime j, matching the
notebook display where the matrix for two regimes reads
row 0 = (p00, p10), row 1 = (1 - p00, 1 - p10), so each COLUMN sums to 1.
-/

namespace Markov

/-! ## Definitions: Parameter Transform (spec section 4.1) -/

/-- Modelled from the spec: the constrained, domain-meaningful parameter set
for a model with k + 1 regimes, m regression coefficients and v variances.
P is the full transition matrix, stored column stochastic (first index is the
destination regime, second index the previous regime). -/
@[ext]
structure ConParams (k m v : ℕ) where
  coeffs : Fin m → ℝ
  variances : Fin v → ℝ
  P : Fin (k + 1) → Fin (k + 1) → ℝ

/-- Modelled from the spec: the unconstrained optimizer-facing parameter
vector; one logit column of length k per column of the transition matrix. -/
@[ext]
structure UncParams (k m v : ℕ) where
  coeffs : Fin m → ℝ
  logVars : Fin v → ℝ
  logits : Fin (k + 1) → Fin k → ℝ

/-- Denominator of the multinomial-logit (softmax) map on one column. -/
noncomputable def colDenom {k : ℕ} (x : Fin k → ℝ) : ℝ :=
  1 + ∑ m, Real.exp (x m)

/-- Modelled from the spec: k unconstrained reals map to a probability simplex
of size k + 1 via the multinomial logit; the first k rows are free, the last
row takes the remaining mass. -/
noncomputable def softmaxCol {k : ℕ} (x : Fin k → ℝ) : Fin (k + 1) → ℝ :=
  Fin.lastCases (1 / colDenom x) (fun i => Real.exp (x i) / colDenom x)

/-- Modelled from the spec: to_constrained leaves regression coefficients
unchanged, maps variances through exp, and maps each logit column through the
softmax to one column of the transition matrix. -/
noncomputable def to_constrained {k m v : ℕ} (u : UncParams k m v) :
    ConParams k m v where
  coeffs := u.coeffs
  variances := fun s => Real.exp (u.logVars s)
  P := fun i j => softmaxCol (u.logits j) i

open Classical in
/-- Modelled from the spec: to_unconstrained signals an invalid-parameter
error (none) when some probability lies outside [0,1] or some variance is not
strictly positive; otherwise coefficients pass unchanged, variances map
through log, and column j of the transition matrix maps to the logit vector
log (P i j / P last j) for i below k. -/
noncomputable def to_unconstrained {k m v : ℕ} (p : ConParams k m v) :
    Option (UncParams k m v) :=
  if (∀ s, 0 < p.variances s) ∧ (∀ i j, 0 ≤ p.P i j ∧ p.P i j ≤ 1) then
    some ⟨p.coeffs, fun s => Real.log (p.variances s),
      fun j i => Real.log (p.P i.castSucc j / p.P (Fin.last k) j)⟩
  else none

/-- Round trip through the unconstrained representation. -/
noncomputable def roundTrip {k m v : ℕ} (p : ConParams k m v) :
    Option (ConParams k m v) :=
  (to_unconstrained p).map to_constrained

/-! ## Definitions: Hamilton Filter (spec section 4.3) and
Kim Smoother (spec section 4.4)

The recursions are modelled from the spec over an arbitrary linear ordered
field (instantiated at ℚ for concrete evaluation and at ℝ when combined with
the transform).  The regime-likelihood densities enter as an abstract
nonnegative tensor, exactly the output interface of the Regime Likelihood
Engine of spec section 4.2. -/

/-- One time step of filter output: the one-step-ahead predicted marginal, the
filtered marginal, and the marginal likelihood contribution. -/
@[ext]
structure FilterStep (k : ℕ) (F : Type) where
  pred : Fin k → F
  filt : Fin k → F
  lik : F
  deriving DecidableEq

/-- Modelled from the spec: one forward step of the Hamilton filter.  Given
the previous filtered marginal f, form the joint prior f i * P j i over
(previous regime i, current regime j), weight by the density d i j, sum the
unnormalized posterior for the marginal likelihood contribution c, and signal
the numerical-degeneracy error (none) when c vanishes; otherwise normalize. -/
def filterStep {F : Type} [LinearOrderedField F] [DecidableEq F] {k : ℕ}
    (P : Fin k → Fin k → F) (d : Fin k → Fin k → F) (f : Fin k → F) :
    Option (FilterStep k F) :=
  if (∑ i, ∑ j, f i * P j i * d i j) = 0 then none
  else some ⟨fun j => ∑ i, f i * P j i,
    fun j => (∑ i, f i * P j i * d i j) / (∑ i, ∑ j, f i * P j i * d i j),
    ∑ i, ∑ j, f i * P j i * d i j⟩

/-- Modelled from the spec: the Hamilton filter run for T steps from the
initial regime distribution pi0, with densities d indexed by time.  Returns
the final filtered marginal together with the per-step records in
reverse-chronological order (head is the final time step), or none on the
numerical-degeneracy error. -/
def hamiltonFilter {F : Type} [LinearOrderedField F] [DecidableEq F] {k : ℕ}
    (P : Fin k → Fin k → F) (pi0 : Fin k → F)
    (d : ℕ → Fin k → Fin k → F) : ℕ → Option ((Fin k → F) × List (FilterStep k F))
  | 0 => some (pi0, [])
  | T + 1 =>
    (hamiltonFilter P pi0 d T).bind fun fs =>
      (filterStep P (d T) fs.1).map fun st => (st.filt, st :: fs.2)

/-- Modelled from the spec: one backward step of the Kim smoother.  Given the
predicted marginal pred and smoothed marginal s for time t + 1 and the
filtered marginal f for time t, the smoothed marginal at t multiplies f j by
the backward correction; division by a vanished predicted probability signals
the numerical-degeneracy error (none). -/
def smoothStep {F : Type} [LinearOrderedField F] [DecidableEq F] {k : ℕ}
    (P : Fin k → Fin k → F) (pred f s : Fin k → F) : Option (Fin k → F) :=
  if ∀ j, pred j ≠ 0 then
    some (fun j => f j * ∑ j2, P j2 j * s j2 / pred j2)
  else none

/-- Backward recursion of the Kim smoother over the reverse-chronological
step list: s and pred belong to time t + 1, the head of the list to time t. -/
def kimAux {F : Type} [LinearOrderedField F] [DecidableEq F] {k : ℕ}
    (P : Fin k → Fin k → F) :
    (Fin k → F) → (Fin k → F) → List (FilterStep k F) → Option (List (Fin k → F))
  | _, _, [] => some []
  | s, pred, st :: rest =>
    (smoothStep P pred st.filt s).bind fun s2 =>
      (kimAux P s2 st.pred rest).map fun out => s2 :: out

/-- Modelled from the spec: the Kim smoother.  The smoothed marginal at the
final time step is initialized to the filtered marginal there, then the
backward recursion runs; output is reverse-chronological like the input. -/
def kimSmoother {F : Type} [LinearOrderedField F] [DecidableEq F] {k : ℕ}
    (P : Fin k → Fin k → F) :
    List (FilterStep k F) → Option (List (Fin k → F))
  | [] => some []
  | st :: rest =>
    (kimAux P st.filt st.pred rest).map fun out => st.filt :: out

/-- Chain invariant of a reverse-chronological filter trace: the running pred
is the one-step-ahead prediction from the filtered marginal at the head, and
recursively each step predicts from its predecessor. -/
def predLink {F : Type} [LinearOrderedField F] {k : ℕ}
    (P : Fin k → Fin k → F) :
    List (FilterStep k F) → (Fin k → F) → Prop
  | [], _ => True
  | st :: rest, pred =>
    (∀ j, pred j = ∑ i, st.filt i * P j i) ∧ predLink P rest st.pred

/-! ## Definitions: Regime Duration Calculator (spec section 4.6) -/

/-- Modelled from the spec: expected duration of regime j is
1 / (1 - P j j), with a domain error (none) precisely when some diagonal
entry equals 1 exactly. -/
def expected_durations {F : Type} [LinearOrderedField F] [DecidableEq F]
    {n : ℕ} (P : Fin n → Fin n → F) : Option (Fin n → F) :=
  if ∀ j, P j j ≠ 1 then some (fun j => 1 / (1 - P j j)) else none

/-! ## Definitions: Likelihood-Based Estimator (spec section 4.5)

The external optimizer collaborator is abstracted as a function from an
objective and a start to an outcome; its contract from spec section 6 is the
DescentOpt predicate.  The random perturbations of the default start are
drawn from a deterministic linear congruential generator seeded by the given
seed, modelling the reproducibility clause of spec section 4.5. -/

/-- Outcome returned by the external optimizer collaborator. -/
structure OptOutcome (α : Type) (F : Type) where
  argmin : α
  value : F
  converged : Bool
  deriving DecidableEq

/-- Contract of the optimizer collaborator: the reported value is the
objective at the reported argmin, and it never exceeds the objective at the
supplied starting point. -/
def DescentOpt {α : Type} {F : Type} [LinearOrderedField F]
    (opt : (α → F) → α → OptOutcome α F) : Prop :=
  ∀ g s, (opt g s).value = g (opt g s).argmin ∧ (opt g s).value ≤ g s

/-- Candidate selection of the multi-start search: the candidate with the
smallest objective value among the default start and the perturbations. -/
def bestStart {α : Type} {F : Type} [LinearOrderedField F] [DecidableEq F]
    (f : α → F) (s0 : α) : List α → α
  | [] => s0
  | c :: rest =>
    if f c < f (bestStart f s0 rest) then c else bestStart f s0 rest

/-- Linear congruential pseudo-random generator step. -/
def lcg (s : ℕ) : ℕ := (1103515245 * s + 12345) % 2147483648

/-- Iterated generator stream. -/
def lcgStream (seed : ℕ) : ℕ → ℕ
  | 0 => lcg seed
  | n + 1 => lcg (lcgStream seed n)

/-- Modelled from the spec: the reps random perturbations of the default
start, derived deterministically from the seed. -/
def randStarts {α : Type} (perturb : ℕ → α) (seed reps : ℕ) : List α :=
  (List.range reps).map fun n => perturb (lcgStream seed n)

/-- Modelled from the spec: fit evaluates the objective at the default start
and at reps seeded random perturbations, and runs the optimizer to full
convergence only from the best-performing candidate; with reps = 0 it runs
directly from the default start. -/
def fit {α : Type} {F : Type} [LinearOrderedField F] [DecidableEq F]
    (opt : (α → F) → α → OptOutcome α F) (f : α → F)
    (s0 : α) (perturb : ℕ → α) (reps seed : ℕ) : OptOutcome α F :=
  if reps = 0 then opt f s0
  else opt f (bestStart f s0 (randStarts perturb seed reps))

/-- Modelled from the spec: the full fit result, obtained by one final
forward and backward pass at the converged parameters; Pof, pi0of and dof map
the converged unconstrained argmin to the filter inputs (the composition of
the Parameter Transform and the Regime Likelihood Engine, abstracted). -/
def fitResult {α : Type} {F : Type} [LinearOrderedField F] [DecidableEq F]
    {k : ℕ} (opt : (α → F) → α → OptOutcome α F) (f : α → F)
    (s0 : α) (perturb : ℕ → α) (reps seed : ℕ)
    (Pof : α → Fin k → Fin k → F) (pi0of : α → Fin k → F)
    (dof : α → ℕ → Fin k → Fin k → F) (T : ℕ) :
    OptOutcome α F × Option ((Fin k → F) × List (FilterStep k F)) ×
      Option (List (Fin k → F)) :=
  let o := fit opt f s0 perturb reps seed
  let filtered := hamiltonFilter (Pof o.argmin) (pi0of o.argmin) (dof o.argmin) T
  let smoothed :=
    match filtered with
    | none => none
    | some (_, steps) => kimSmoother (Pof o.argmin) steps
  (o, filtered, smoothed)

/-! ## Definitions: concrete inputs used in counterexamples and witnesses -/

/-- Boundary constrained parameter set for two regimes: each transition
column is (1, 0), a degenerate simplex with entries on the closed boundary
of [0,1]. -/
noncomputable def pBad : ConParams 1 0 1 where
  coeffs := fun c => c.elim0
  variances := fun _ => 1
  P := fun i _ => if i = 0 then 1 else 0

/-- Unconstrained input whose two transition columns have distinct logits,
exhibiting a transition matrix whose rows do not sum to one. -/
noncomputable def uRow : UncParams 1 0 1 where
  coeffs := fun c => c.elim0
  logVars := fun _ => 0
  logits := fun j _ => if j = 0 then 0 else Real.log 3

/-- All-zero unconstrained input for two regimes. -/
noncomputable def uZero : UncParams 1 0 1 where
  coeffs := fun c => c.elim0
  logVars := fun _ => 0
  logits := fun _ _ => 0

/-- Concrete half-half constrained parameter set for two regimes. -/
noncomputable def pHalf : ConParams 1 0 1 where
  coeffs := fun c => c.elim0
  variances := fun _ => 1
  P := fun _ _ => 1 / 2

/-- Concrete two-regime transition matrix over ℚ for filter evaluation. -/
def Pw : Fin 2 → Fin 2 → ℚ := fun _ _ => 1 / 2

/-- Concrete uniform initial regime distribution over ℚ. -/
def pi0w : Fin 2 → ℚ := fun _ => 1 / 2

/-- Concrete constant density tensor over ℚ. -/
def dw : ℕ → Fin 2 → Fin 2 → ℚ := fun _ _ _ => 1

/-- The filter step produced by one step of the filter on Pw, pi0w, dw. -/
def stw : FilterStep 2 ℚ := ⟨fun _ => 1 / 2, fun _ => 1 / 2, 1⟩

/-- Piecewise objective with a poor local optimum near the perturbed start:
value 0 at -1, value 3 at 1, value 4 at 0, value 5 elsewhere. -/
def f0 : ℚ → ℚ := fun x =>
  if x = -1 then 0 else if x = 1 then 3 else if x = 0 then 4 else 5

/-- A contract-conforming local optimizer: it takes a single unit step to the
left when that decreases the objective, and otherwise stays put. -/
def opt0 : (ℚ → ℚ) → ℚ → OptOutcome ℚ ℚ := fun g s =>
  if g (s - 1) < g s then ⟨s - 1, g (s - 1), true⟩ else ⟨s, g s, true⟩

/-- Concrete duration-calculator input with self-transition probabilities
9/10 and 1/2. -/
def Pdur : Fin 2 → Fin 2 → ℚ := fun i j =>
  if i = j then (if i = 0 then 9 / 10 else 1 / 2) else 0

/-- Degenerate transition matrix with an absorbing regime (diagonal one). -/
def Pone : Fin 2 → Fin 2 → ℚ := fun i j => if i = j then 1 else 0

/-- Concrete uniform regime distribution over ℝ. -/
noncomputable def fR : Fin 2 → ℝ := fun _ => 1 / 2

/-- Concrete constant density matrix over ℝ. -/
noncomputable def dR : Fin 2 → Fin 2 → ℝ := fun _ _ => 1

/-- The filter step produced by one real filter step on the half-half
matrix with uniform distribution and unit densities. -/
noncomputable def stR : FilterStep 2 ℝ := ⟨fun _ => 1 / 2, fun _ => 1 / 2, 1⟩

/-! ## Lemmas about the softmax column map -/

lemma colDenom_pos {k : ℕ} (x : Fin k → ℝ) : 0 < colDenom x := by
  have h : (0 : ℝ) ≤ ∑ m, Real.exp (x m) :=
    Finset.sum_nonneg fun m _ => (Real.exp_pos (x m)).le
  unfold colDenom; linarith

lemma softmaxCol_castSucc {k : ℕ} (x : Fin k → ℝ) (i : Fin k) :
    softmaxCol x i.castSucc = Real.exp (x i) / colDenom x := by
  simp [softmaxCol]

lemma softmaxCol_last {k : ℕ} (x : Fin k → ℝ) :
    softmaxCol x (Fin.last k) = 1 / colDenom x := by
  simp [softmaxCol]

lemma softmaxCol_sum {k : ℕ} (x : Fin k → ℝ) : ∑ i, softmaxCol x i = 1 := by
  have hd : colDenom x ≠ 0 := ne_of_gt (colDenom_pos x)
  rw [Fin.sum_univ_castSucc]
  simp only [softmaxCol_castSucc, softmaxCol_last]
  rw [← Finset.sum_div, div_add_div_same]
  rw [show (∑ i, Real.exp (x i)) + 1 = colDenom x by rw [colDenom]; ring]
  exact div_self hd

lemma softmaxCol_pos {k : ℕ} (x : Fin k → ℝ) (i : Fin (k + 1)) :
    0 < softmaxCol x i := by
  induction i using Fin.lastCases with
  | last => rw [softmaxCol_last]; exact div_pos one_pos (colDenom_pos x)
  | cast i => rw [softmaxCol_castSucc]; exact div_pos (Real.exp_pos _) (colDenom_pos x)

lemma softmaxCol_lt_one {k : ℕ} (hk : 0 < k) (x : Fin k → ℝ) (i : Fin (k + 1)) :
    softmaxCol x i < 1 := by
  have hd : 0 < colDenom x := colDenom_pos x
  induction i using Fin.lastCases with
  | last =>
    rw [softmaxCol_last, div_lt_one hd, colDenom]
    have ⟨m⟩ : Nonempty (Fin k) := ⟨⟨0, hk⟩⟩
    have h1 : Real.exp (x m) ≤ ∑ j, Real.exp (x j) :=
      Finset.single_le_sum (fun j _ => (Real.exp_pos (x j)).le) (Finset.mem_univ m)
    have h2 : 0 < Real.exp (x m) := Real.exp_pos _
    linarith
  | cast i =>
    rw [softmaxCol_castSucc, div_lt_one hd, colDenom]
    have h1 : Real.exp (x i) ≤ ∑ j, Real.exp (x j) :=
      Finset.single_le_sum (fun j _ => (Real.exp_pos (x j)).le) (Finset.mem_univ i)
    linarith

lemma softmaxCol_le_one {k : ℕ} (x : Fin k → ℝ) (i : Fin (k + 1)) :
    softmaxCol x i ≤ 1 := by
  have hd : 0 < colDenom x := colDenom_pos x
  have h : (0 : ℝ) ≤ ∑ m, Real.exp (x m) :=
    Finset.sum_nonneg fun m _ => (Real.exp_pos (x m)).le
  induction i using Fin.lastCases with
  | last =>
    rw [softmaxCol_last, div_le_one hd, colDenom]; linarith
  | cast i =>
    rw [softmaxCol_castSucc, div_le_one hd, colDenom]
    have h1 : Real.exp (x i) ≤ ∑ j, Real.exp (x j) :=
      Finset.single_le_sum (fun j _ => (Real.exp_pos (x j)).le) (Finset.mem_univ i)
    linarith

lemma softmaxCol_log_inverse {k : ℕ} (p : Fin (k + 1) → ℝ)
    (hpos : ∀ i, 0 < p i) (hsum : ∑ i, p i = 1) (i : Fin (k + 1)) :
    softmaxCol (fun m => Real.log (p m.castSucc / p (Fin.last k))) i = p i := by
  set x := fun m : Fin k => Real.log (p m.castSucc / p (Fin.last k)) with hx
  have hlast : 0 < p (Fin.last k) := hpos _
  have hexp : ∀ m : Fin k, Real.exp (x m) = p m.castSucc / p (Fin.last k) :=
    fun m => Real.exp_log (div_pos (hpos _) hlast)
  have hcs : ∑ m : Fin k, p m.castSucc = 1 - p (Fin.last k) := by
    have h := Fin.sum_univ_castSucc (f := p)
    rw [hsum] at h; linarith
  have hdenom : colDenom x = 1 / p (Fin.last k) := by
    rw [colDenom, Finset.sum_congr rfl fun m _ => hexp m, ← Finset.sum_div, hcs]
    field_simp
  induction i using Fin.lastCases with
  | last => rw [softmaxCol_last, hdenom, one_div_one_div]
  | cast i =>
    rw [softmaxCol_castSucc, hexp, hdenom]
    field_simp

/-! ## Lemmas about the Hamilton filter and the Kim smoother -/

section FilterLemmas

variable {F : Type} [LinearOrderedField F] [DecidableEq F] {k : ℕ}

lemma filterStep_eq (P : Fin k → Fin k → F) (d : Fin k → Fin k → F)
    (f : Fin k → F) (st : FilterStep k F) (h : filterStep P d f = some st) :
    (∑ i, ∑ j, f i * P j i * d i j) ≠ 0 ∧
    st = ⟨fun j => ∑ i, f i * P j i,
      fun j => (∑ i, f i * P j i * d i j) / (∑ i, ∑ j, f i * P j i * d i j),
      ∑ i, ∑ j, f i * P j i * d i j⟩ := by
  unfold filterStep at h
  by_cases hc : (∑ i, ∑ j, f i * P j i * d i j) = 0
  · rw [if_pos hc] at h; exact absurd h (by simp)
  · rw [if_neg hc] at h; exact ⟨hc, (Option.some.inj h).symm⟩

lemma filterStep_pred (P : Fin k → Fin k → F) (d : Fin k → Fin k → F)
    (f : Fin k → F) (st : FilterStep k F) (h : filterStep P d f = some st) :
    ∀ j, st.pred j = ∑ i, f i * P j i := by
  obtain ⟨-, hst⟩ := filterStep_eq P d f st h
  subst hst; intro j; rfl

lemma filterStep_filt_sum (P : Fin k → Fin k → F) (d : Fin k → Fin k → F)
    (f : Fin k → F) (st : FilterStep k F) (h : filterStep P d f = some st) :
    ∑ j, st.filt j = 1 := by
  obtain ⟨hc, hst⟩ := filterStep_eq P d f st h
  subst hst
  show ∑ j, (∑ i, f i * P j i * d i j) / (∑ i, ∑ j, f i * P j i * d i j) = 1
  rw [← Finset.sum_div, Finset.sum_comm]
  exact div_self hc

lemma smoothStep_eq (P : Fin k → Fin k → F) (pred f s s2 : Fin k → F)
    (h : smoothStep P pred f s = some s2) :
    (∀ j, pred j ≠ 0) ∧
    s2 = fun j => f j * ∑ j2, P j2 j * s j2 / pred j2 := by
  unfold smoothStep at h
  by_cases hp : ∀ j, pred j ≠ 0
  · rw [if_pos hp] at h; exact ⟨hp, (Option.some.inj h).symm⟩
  · rw [if_neg hp] at h; exact absurd h (by simp)

lemma hamiltonFilter_inv (P : Fin k → Fin k → F) (pi0 : Fin k → F)
    (d : ℕ → Fin k → Fin k → F) :
    ∀ (T : ℕ) (f : Fin k → F) (steps : List (FilterStep k F)),
      hamiltonFilter P pi0 d T = some (f, steps) →
      (∀ st ∈ steps, ∑ j, st.filt j = 1) ∧
      predLink P steps (fun j => ∑ i, f i * P j i) ∧
      (steps = [] → f = pi0) ∧
      (∀ st rest, steps = st :: rest → f = st.filt) := by
  intro T
  induction T with
  | zero =>
    intro f steps h
    rw [hamiltonFilter] at h
    obtain ⟨hf, hs⟩ := Prod.mk.injEq .. ▸ Option.some.inj h
    subst hf; subst hs
    refine ⟨by simp, trivial, fun _ => rfl, ?_⟩
    intro st rest hco
    exact absurd hco (by simp)
  | succ T ih =>
    intro f steps h
    rw [hamiltonFilter] at h
    rw [Option.bind_eq_some] at h
    obtain ⟨⟨f1, steps1⟩, hfil, h⟩ := h
    rw [Option.map_eq_some'] at h
    obtain ⟨st, hstep, h⟩ := h
    obtain ⟨hf, hs⟩ := Prod.mk.injEq .. ▸ h
    subst hf; subst hs
    obtain ⟨ih1, ih2, -, -⟩ := ih f1 steps1 hfil
    refine ⟨?_, ?_, ?_, ?_⟩
    · intro st2 hmem
      rcases List.mem_cons.mp hmem with hh | hh
      · subst hh; exact filterStep_filt_sum P (d T) f1 st2 hstep
      · exact ih1 st2 hh
    · refine ⟨fun j => rfl, ?_⟩
      have hp : st.pred = fun j => ∑ i, f1 i * P j i :=
        funext (filterStep_pred P (d T) f1 st hstep)
      rw [hp]; exact ih2
    · intro hco; exact absurd hco (by simp)
    · intro st2 rest hco
      obtain ⟨h1, -⟩ := List.cons.injEq .. ▸ hco
      rw [h1]

lemma kimAux_sum (P : Fin k → Fin k → F) :
    ∀ (steps : List (FilterStep k F)) (s pred : Fin k → F)
      (out : List (Fin k → F)),
      predLink P steps pred → (∑ j, s j) = 1 →
      kimAux P s pred steps = some out →
      ∀ x ∈ out, ∑ j, x j = 1 := by
  intro steps
  induction steps with
  | nil =>
    intro s pred out _ _ h x hx
    rw [kimAux] at h
    rw [← Option.some.inj h] at hx
    exact absurd hx (by simp)
  | cons st rest ih =>
    intro s pred out hlink hs h x hx
    rw [kimAux, Option.bind_eq_some] at h
    obtain ⟨s2, hss, h⟩ := h
    rw [Option.map_eq_some'] at h
    obtain ⟨out2, hk, h⟩ := h
    subst h
    obtain ⟨hpred, hform⟩ := smoothStep_eq P pred st.filt s s2 hss
    have hs2 : ∑ j, s2 j = 1 := by
      subst hform
      calc ∑ j, st.filt j * ∑ j2, P j2 j * s j2 / pred j2
          = ∑ j, ∑ j2, st.filt j * (P j2 j * s j2 / pred j2) := by
            refine Finset.sum_congr rfl ?_
            intro j _; rw [Finset.mul_sum]
        _ = ∑ j2, ∑ j, st.filt j * (P j2 j * s j2 / pred j2) := Finset.sum_comm
        _ = ∑ j2, (s j2 / pred j2) * ∑ j, st.filt j * P j2 j := by
            refine Finset.sum_congr rfl ?_
            intro j2 _
            rw [Finset.mul_sum]
            refine Finset.sum_congr rfl ?_
            intro j _; ring
        _ = ∑ j2, (s j2 / pred j2) * pred j2 := by
            refine Finset.sum_congr rfl ?_
            intro j2 _; rw [← hlink.1 j2]
        _ = ∑ j2, s j2 := by
            refine Finset.sum_congr rfl ?_
            intro j2 _; exact div_mul_cancel₀ (s j2) (hpred j2)
        _ = 1 := hs
    rcases List.mem_cons.mp hx with hh | hh
    · rw [hh]; exact hs2
    · exact ih s2 st.pred out2 hlink.2 hs2 hk x hh

end FilterLemmas

/-! ## Claim theorems -/

/-- C7: for every finite unconstrained input vector (with at least two
regimes), to_constrained produces strictly positive variances via exp,
transition probabilities strictly inside the open interval (0,1), and each
column simplex summing to exactly 1. -/
theorem to_constrained_open_interval {k m v : ℕ} (hk : 0 < k)
    (u : UncParams k m v) :
    (∀ s, 0 < (to_constrained u).variances s) ∧
    (∀ i j, 0 < (to_constrained u).P i j ∧ (to_constrained u).P i j < 1) ∧
    (∀ j, ∑ i, (to_constrained u).P i j = 1) :=
  ⟨fun _ => Real.exp_pos _,
   fun i _ => ⟨softmaxCol_pos _ i, softmaxCol_lt_one hk _ i⟩,
   fun j => softmaxCol_sum (u.logits j)⟩

/-- Witness for the C7 theorem: two regimes, all logits and log-variances
zero. -/
theorem to_constrained_open_interval_witness :
    0 < 1 ∧
    ((∀ s, 0 < (to_constrained uZero).variances s) ∧
     (∀ i j, 0 < (to_constrained uZero).P i j ∧ (to_constrained uZero).P i j < 1) ∧
     (∀ j, ∑ i, (to_constrained uZero).P i j = 1)) :=
  ⟨Nat.one_pos, to_constrained_open_interval Nat.one_pos uZero⟩

/-- C2 (amended): every COLUMN of a Parameter-Transform-produced transition
matrix sums to 1.0 within 1e-10 (indeed exactly), and all entries lie in
[0,1]; the rows do not carry the simplex constraint. -/
theorem to_constrained_columns_stochastic {k m v : ℕ} (u : UncParams k m v) :
    (∀ j, |(∑ i, (to_constrained u).P i j) - 1| ≤ 1 / 10 ^ 10) ∧
    (∀ i j, 0 ≤ (to_constrained u).P i j ∧ (to_constrained u).P i j ≤ 1) := by
  constructor
  · intro j
    rw [show (∑ i, (to_constrained u).P i j) = 1 from softmaxCol_sum (u.logits j)]
    norm_num
  · exact fun i _ => ⟨(softmaxCol_pos _ i).le, softmaxCol_le_one _ i⟩

/-- C2 counterexample: a Parameter-Transform-produced transition matrix for
two regimes whose first ROW sums to 5/4, far outside the 1e-10 tolerance;
the simplex constraint holds columnwise, not rowwise. -/
theorem to_constrained_row_sum_counterexample :
    (∑ j, (to_constrained uRow).P 0 j) = 5 / 4 ∧
    ¬(|(5 : ℝ) / 4 - 1| ≤ 1 / 10 ^ 10) := by
  constructor
  · have hden0 : colDenom (fun _ : Fin 1 => (0 : ℝ)) = 2 := by
      simp [colDenom]
      norm_num
    have hden3 : colDenom (fun _ : Fin 1 => Real.log 3) = 4 := by
      rw [colDenom]
      rw [show (∑ m : Fin 1, Real.exp ((fun _ : Fin 1 => Real.log 3) m)) = 3 by
        simp [Real.exp_log (by norm_num : (0 : ℝ) < 3)]]
      norm_num
    have hl0 : uRow.logits 0 = fun _ : Fin 1 => (0 : ℝ) := by
      funext i; simp [uRow]
    have hl1 : uRow.logits 1 = fun _ : Fin 1 => Real.log 3 := by
      funext i; simp [uRow]
    have hP00 : (to_constrained uRow).P 0 0 = 1 / 2 := by
      show softmaxCol (uRow.logits 0) 0 = 1 / 2
      rw [hl0, show (0 : Fin 2) = Fin.castSucc 0 from rfl, softmaxCol_castSucc,
        hden0, Real.exp_zero]
    have hP01 : (to_constrained uRow).P 0 1 = 3 / 4 := by
      show softmaxCol (uRow.logits 1) 0 = 3 / 4
      rw [hl1, show (0 : Fin 2) = Fin.castSucc 0 from rfl, softmaxCol_castSucc,
        hden3, Real.exp_log (by norm_num : (0 : ℝ) < 3)]
    rw [Fin.sum_univ_two, hP00, hP01]
    norm_num
  · rw [show |(5 : ℝ) / 4 - 1| = 1 / 4 by rw [abs_of_pos] <;> norm_num]
    norm_num

/-- C5: on every transition matrix with all diagonal entries strictly below
one, the Regime Duration Calculator succeeds and returns exactly
1 / (1 - P j j) for every regime; self-transition probability 9/10 gives
exactly 10 and 1/2 gives exactly 2. -/
theorem expected_durations_formula {F : Type} [LinearOrderedField F]
    [DecidableEq F] {n : ℕ} (P : Fin n → Fin n → F) (h : ∀ j, P j j < 1) :
    expected_durations P = some (fun j => 1 / (1 - P j j)) ∧
    (∀ j, P j j = 9 / 10 → (1 : F) / (1 - P j j) = 10) ∧
    (∀ j, P j j = 1 / 2 → (1 : F) / (1 - P j j) = 2) := by
  refine ⟨?_, ?_, ?_⟩
  · rw [expected_durations, if_pos (fun j => ne_of_lt (h j))]
  · intro j hj; rw [hj]; norm_num
  · intro j hj; rw [hj]; norm_num

/-- Witness for the C5 theorem on the concrete matrix with self-transition
probabilities 9/10 and 1/2. -/
theorem expected_durations_formula_witness :
    (∀ j, Pdur j j < 1) ∧
    expected_durations Pdur = some (fun j => 1 / (1 - Pdur j j)) ∧
    (1 : ℚ) / (1 - Pdur 0 0) = 10 ∧ (1 : ℚ) / (1 - Pdur 1 1) = 2 := by
  have hdiag : ∀ j, Pdur j j < 1 := by
    intro j
    fin_cases j <;> norm_num [Pdur]
  exact ⟨hdiag, (expected_durations_formula Pdur hdiag).1,
    (expected_durations_formula Pdur hdiag).2.1 0 (by norm_num [Pdur]),
    (expected_durations_formula Pdur hdiag).2.2 1 (by norm_num [Pdur])⟩

/-- C6: the Regime Duration Calculator signals its domain error (none)
exactly when some diagonal entry equals 1; with all diagonal entries
strictly below 1 it succeeds. -/
theorem expected_durations_error_iff {F : Type} [LinearOrderedField F]
    [DecidableEq F] {n : ℕ} (P : Fin n → Fin n → F) :
    (expected_durations P = none ↔ ∃ j, P j j = 1) ∧
    ((∀ j, P j j < 1) → expected_durations P ≠ none) := by
  constructor
  · by_cases h : ∀ j, P j j ≠ 1
    · rw [expected_durations, if_pos h]
      constructor
      · intro hco; exact absurd hco (Option.some_ne_none _)
      · rintro ⟨j, hj⟩; exact absurd hj (h j)
    · rw [expected_durations, if_neg h]
      simp only [true_iff]
      push_neg at h
      exact h
  · intro h
    rw [expected_durations, if_pos (fun j => ne_of_lt (h j))]
    exact Option.some_ne_none _

/-- Witness for the C6 theorem: the identity-diagonal matrix errors, the
9/10 and 1/2 matrix succeeds. -/
theorem expected_durations_error_iff_witness :
    Pone 0 0 = 1 ∧ expected_durations Pone = none ∧
    (∀ j, Pdur j j < 1) ∧ expected_durations Pdur ≠ none := by
  have hdiag : ∀ j, Pdur j j < 1 := by
    intro j
    fin_cases j <;> norm_num [Pdur]
  exact ⟨by norm_num [Pone],
    (expected_durations_error_iff Pone).1.mpr ⟨0, by norm_num [Pone]⟩,
    hdiag, (expected_durations_error_iff Pdur).2 hdiag⟩

/-- C3: whenever the Hamilton filter and the Kim smoother both succeed on a
nonempty series, the smoothed marginal at the final time step is exactly the
filtered marginal at the final time step (head of the
reverse-chronological records). -/
theorem smoothed_final_eq_filtered {F : Type} [LinearOrderedField F]
    [DecidableEq F] {k : ℕ} (P : Fin k → Fin k → F) (pi0 : Fin k → F)
    (d : ℕ → Fin k → Fin k → F) (T : ℕ) (f : Fin k → F)
    (steps : List (FilterStep k F)) (out : List (Fin k → F))
    (hfil : hamiltonFilter P pi0 d T = some (f, steps))
    (hsm : kimSmoother P steps = some out) (hne : steps ≠ []) :
    out.head? = some f := by
  cases steps with
  | nil => exact absurd rfl hne
  | cons st rest =>
    rw [kimSmoother, Option.map_eq_some'] at hsm
    obtain ⟨out2, hk2, hout⟩ := hsm
    obtain ⟨-, -, -, h4⟩ := hamiltonFilter_inv P pi0 d T f (st :: rest) hfil
    rw [← hout, h4 st rest rfl]
    rfl

lemma filterStep_w : filterStep Pw (dw 0) pi0w = some stw := by
  rw [filterStep]
  have hc : (∑ i, ∑ j, pi0w i * Pw j i * dw 0 i j) = 1 := by
    norm_num [Pw, pi0w, dw, Fin.sum_univ_two]
  rw [if_neg (by rw [hc]; norm_num)]
  congr 1
  refine FilterStep.ext ?_ ?_ ?_
  · funext j
    norm_num [Pw, pi0w, stw, Fin.sum_univ_two]
  · funext j
    rw [hc]
    norm_num [Pw, pi0w, dw, stw, Fin.sum_univ_two]
  · exact hc

lemma hamiltonFilter_w : hamiltonFilter Pw pi0w dw 1 = some (stw.filt, [stw]) := by
  have h0 : hamiltonFilter Pw pi0w dw 0 = some (pi0w, []) := rfl
  show (hamiltonFilter Pw pi0w dw 0).bind
      (fun fs => (filterStep Pw (dw 0) fs.1).map fun st => (st.filt, st :: fs.2))
    = some (stw.filt, [stw])
  rw [h0, Option.some_bind, filterStep_w, Option.map_some']

lemma kimSmoother_w : kimSmoother Pw [stw] = some [stw.filt] := rfl

/-- Witness for the C3 theorem on a concrete one-step two-regime run. -/
theorem smoothed_final_eq_filtered_witness :
    hamiltonFilter Pw pi0w dw 1 = some (stw.filt, [stw]) ∧
    kimSmoother Pw [stw] = some [stw.filt] ∧
    ([stw] : List (FilterStep 2 ℚ)) ≠ [] ∧
    ([stw.filt] : List (Fin 2 → ℚ)).head? = some stw.filt :=
  ⟨hamiltonFilter_w, kimSmoother_w, by simp,
   smoothed_final_eq_filtered Pw pi0w dw 1 stw.filt [stw] [stw.filt]
     hamiltonFilter_w kimSmoother_w (by simp)⟩

/-- C4: whenever the Hamilton filter and the Kim smoother both succeed, every
row of the smoothed probability output sums to 1 within 1e-8 (indeed
exactly). -/
theorem smoothed_rows_sum {F : Type} [LinearOrderedField F] [DecidableEq F]
    {k : ℕ} (P : Fin k → Fin k → F) (pi0 : Fin k → F)
    (d : ℕ → Fin k → Fin k → F) (T : ℕ) (f : Fin k → F)
    (steps : List (FilterStep k F)) (out : List (Fin k → F))
    (hfil : hamiltonFilter P pi0 d T = some (f, steps))
    (hsm : kimSmoother P steps = some out) :
    ∀ x ∈ out, |(∑ j, x j) - 1| ≤ 1 / 10 ^ 8 := by
  have hexact : ∀ x ∈ out, (∑ j, x j) = 1 := by
    cases steps with
    | nil =>
      rw [kimSmoother] at hsm
      intro x hx
      rw [← Option.some.inj hsm] at hx
      exact absurd hx (by simp)
    | cons st rest =>
      rw [kimSmoother, Option.map_eq_some'] at hsm
      obtain ⟨out2, hk2, hout⟩ := hsm
      obtain ⟨h1, h2, -, -⟩ := hamiltonFilter_inv P pi0 d T f (st :: rest) hfil
      have hsum_st : ∑ j, st.filt j = 1 := h1 st (by simp)
      intro x hx
      rw [← hout] at hx
      rcases List.mem_cons.mp hx with hh | hh
      · rw [hh]; exact hsum_st
      · exact kimAux_sum P rest st.filt st.pred out2 h2.2 hsum_st hk2 x hh
  intro x hx
  rw [hexact x hx, sub_self, abs_zero]
  norm_num

/-- Witness for the C4 theorem on a concrete one-step two-regime run. -/
theorem smoothed_rows_sum_witness :
    hamiltonFilter Pw pi0w dw 1 = some (stw.filt, [stw]) ∧
    kimSmoother Pw [stw] = some [stw.filt] ∧
    (∀ x ∈ ([stw.filt] : List (Fin 2 → ℚ)), |(∑ j, x j) - 1| ≤ 1 / 10 ^ 8) :=
  ⟨hamiltonFilter_w, kimSmoother_w,
   smoothed_rows_sum Pw pi0w dw 1 stw.filt [stw] [stw.filt]
     hamiltonFilter_w kimSmoother_w⟩

lemma to_constrained_uZero_P : ∀ i j, (to_constrained uZero).P i j = 1 / 2 := by
  intro i j
  show softmaxCol (uZero.logits j) i = 1 / 2
  have hden : colDenom (fun _ : Fin 1 => (0 : ℝ)) = 2 := by
    simp [colDenom]
    norm_num
  show softmaxCol (fun _ : Fin 1 => (0 : ℝ)) i = 1 / 2
  induction i using Fin.lastCases with
  | last => rw [softmaxCol_last, hden]
  | cast i0 => rw [softmaxCol_castSucc, hden, Real.exp_zero]

lemma filterStep_R : filterStep (to_constrained uZero).P dR fR = some stR := by
  rw [filterStep]
  have hc : (∑ i, ∑ j, fR i * (to_constrained uZero).P j i * dR i j) = 1 := by
    norm_num [to_constrained_uZero_P, fR, dR, Fin.sum_univ_two]
  rw [if_neg (by rw [hc]; norm_num)]
  congr 1
  refine FilterStep.ext ?_ ?_ ?_
  · funext j
    norm_num [to_constrained_uZero_P, fR, stR, Fin.sum_univ_two]
  · funext j
    rw [hc]
    norm_num [to_constrained_uZero_P, fR, dR, stR, Fin.sum_univ_two]
  · exact hc

/-- C10: the single transition-matrix convention is column stochastic with
entry (i, j) the probability of regime i given previous regime j: every
COLUMN of a transform-produced matrix sums to exactly 1, the last row of
each column is 1 minus the free entries above it (for two regimes, row 1 is
1 minus row 0), and the Hamilton filter applies the same orientation: its
predicted marginal weights the previous distribution by the columns, so
total probability mass is conserved. -/
theorem transition_convention {k m v : ℕ} (u : UncParams k m v) :
    (∀ j, ∑ i, (to_constrained u).P i j = 1) ∧
    (∀ j, (to_constrained u).P (Fin.last k) j
        = 1 - ∑ i : Fin k, (to_constrained u).P i.castSucc j) ∧
    (∀ (f1 : Fin (k + 1) → ℝ) (dd : Fin (k + 1) → Fin (k + 1) → ℝ)
        (st : FilterStep (k + 1) ℝ),
        filterStep (to_constrained u).P dd f1 = some st →
        (∀ j, st.pred j = ∑ i, f1 i * (to_constrained u).P j i) ∧
        ((∑ i, f1 i) = 1 → (∑ j, st.pred j) = 1)) := by
  refine ⟨fun j => softmaxCol_sum (u.logits j), ?_, ?_⟩
  · intro j
    have h := softmaxCol_sum (u.logits j)
    rw [Fin.sum_univ_castSucc] at h
    have hlast : softmaxCol (u.logits j) (Fin.last k)
        = (to_constrained u).P (Fin.last k) j := rfl
    have hcs : (∑ i : Fin k, softmaxCol (u.logits j) i.castSucc)
        = ∑ i : Fin k, (to_constrained u).P i.castSucc j := rfl
    rw [hlast, hcs] at h
    linarith
  · intro f1 dd st hst
    have hpred := filterStep_pred _ dd f1 st hst
    refine ⟨hpred, ?_⟩
    intro hf
    calc ∑ j, st.pred j
        = ∑ j, ∑ i, f1 i * (to_constrained u).P j i :=
          Finset.sum_congr rfl fun j _ => hpred j
      _ = ∑ i, ∑ j, f1 i * (to_constrained u).P j i := Finset.sum_comm
      _ = ∑ i, f1 i * ∑ j, (to_constrained u).P j i := by
          refine Finset.sum_congr rfl ?_
          intro i _
          rw [Finset.mul_sum]
      _ = ∑ i, f1 i := by
          refine Finset.sum_congr rfl ?_
          intro i _
          rw [show (∑ j, (to_constrained u).P j i) = 1 from
            softmaxCol_sum (u.logits i), mul_one]
      _ = 1 := hf

/-- Witness for the C10 theorem: two regimes, zero logits, uniform
distribution, unit densities. -/
theorem transition_convention_witness :
    filterStep (to_constrained uZero).P dR fR = some stR ∧
    (∑ i, fR i) = 1 ∧ (∑ j, stR.pred j) = 1 :=
  ⟨filterStep_R, by norm_num [fR, Fin.sum_univ_two],
   ((transition_convention uZero).2.2 fR dR stR filterStep_R).2
     (by norm_num [fR, Fin.sum_univ_two])⟩

/-- C1 (amended): for every constrained parameter set whose transition
probabilities lie strictly inside the open interval (0,1), with each column
simplex summing to 1 and strictly positive variances, the round trip
to_constrained after to_unconstrained reproduces every component within
1e-8 (indeed exactly). -/
theorem roundTrip_reproduces {k m v : ℕ} (p : ConParams k m v)
    (hvar : ∀ s, 0 < p.variances s)
    (hpos : ∀ i j, 0 < p.P i j)
    (hsum : ∀ j, ∑ i, p.P i j = 1) :
    ∃ q, roundTrip p = some q ∧
      (∀ c, |q.coeffs c - p.coeffs c| ≤ 1 / 10 ^ 8) ∧
      (∀ s, |q.variances s - p.variances s| ≤ 1 / 10 ^ 8) ∧
      (∀ i j, |q.P i j - p.P i j| ≤ 1 / 10 ^ 8) := by
  have hle : ∀ i j, 0 ≤ p.P i j ∧ p.P i j ≤ 1 := by
    intro i j
    refine ⟨(hpos i j).le, ?_⟩
    calc p.P i j ≤ ∑ i2, p.P i2 j :=
          Finset.single_le_sum (fun i2 _ => (hpos i2 j).le) (Finset.mem_univ i)
      _ = 1 := hsum j
  have heq : roundTrip p = some p := by
    rw [roundTrip, to_unconstrained, if_pos ⟨hvar, hle⟩, Option.map_some']
    congr 1
    refine ConParams.ext rfl ?_ ?_
    · funext s
      exact Real.exp_log (hvar s)
    · funext i j
      exact softmaxCol_log_inverse (fun i2 => p.P i2 j)
        (fun i2 => hpos i2 j) (hsum j) i
  refine ⟨p, heq, ?_, ?_, ?_⟩ <;>
    · intros
      rw [sub_self, abs_zero]
      norm_num

/-- C1 counterexample: the boundary parameter set pBad has all transition
probabilities inside the closed interval [0,1] with columns summing to 1
and a positive variance, yet the round trip maps the entry 1 at position
(0,0) to 1/2, an error of 1/2, far beyond the 1e-8 tolerance: the inverse
logit divides by the last-row entry 0, which has no finite logarithm, so
boundary simplices are not reproduced. -/
theorem roundTrip_boundary_counterexample :
    pBad.variances 0 = 1 ∧
    pBad.P 0 0 = 1 ∧ pBad.P 1 0 = 0 ∧ pBad.P 0 1 = 1 ∧ pBad.P 1 1 = 0 ∧
    (roundTrip pBad).map (fun q => q.P 0 0) = some (1 / 2) ∧
    ¬(|(1 : ℝ) / 2 - 1| ≤ 1 / 10 ^ 8) := by
  have hcond : (∀ s, 0 < pBad.variances s) ∧
      (∀ i j, 0 ≤ pBad.P i j ∧ pBad.P i j ≤ 1) := by
    constructor
    · intro s; norm_num [pBad]
    · intro i j
      by_cases h : i = 0 <;> simp [pBad, h]
  have hrt : (roundTrip pBad).map (fun q => q.P 0 0) = some (1 / 2) := by
    rw [roundTrip, to_unconstrained, if_pos hcond, Option.map_some',
      Option.map_some']
    congr 1
    show softmaxCol
      (fun i : Fin 1 => Real.log (pBad.P i.castSucc 0 / pBad.P (Fin.last 1) 0))
      0 = 1 / 2
    have hlog : (fun i : Fin 1 =>
        Real.log (pBad.P i.castSucc 0 / pBad.P (Fin.last 1) 0))
        = fun _ => (0 : ℝ) := by
      funext i
      have hi : i = 0 := Subsingleton.elim i 0
      subst hi
      have h1 : pBad.P (Fin.castSucc 0) 0 = 1 := by
        rw [show Fin.castSucc (0 : Fin 1) = (0 : Fin 2) from rfl]
        simp [pBad]
      have h2 : pBad.P (Fin.last 1) 0 = 0 := by
        rw [show Fin.last 1 = (1 : Fin 2) from rfl]
        simp [pBad]
      rw [h1, h2, div_zero, Real.log_zero]
    rw [hlog, show (0 : Fin 2) = Fin.castSucc 0 from rfl, softmaxCol_castSucc,
      Real.exp_zero,
      show colDenom (fun _ : Fin 1 => (0 : ℝ)) = 2 from by simp [colDenom]; norm_num]
  have habs : |(1 : ℝ) / 2 - 1| = 1 / 2 := by
    rw [show (1 : ℝ) / 2 - 1 = -(1 / 2) by norm_num, abs_neg, abs_of_pos]
    norm_num
  refine ⟨by norm_num [pBad], by simp [pBad], by simp [pBad], by simp [pBad],
    by simp [pBad], hrt, ?_⟩
  rw [habs]
  norm_num

/-- Witness for the C1 (amended) theorem on the interior parameter set with
all transition probabilities 1/2 and variance 1. -/
theorem roundTrip_reproduces_witness :
    (∀ s, 0 < pHalf.variances s) ∧ (∀ i j, 0 < pHalf.P i j) ∧
    (∀ j, ∑ i, pHalf.P i j = 1) ∧
    (∃ q, roundTrip pHalf = some q ∧
      (∀ c, |q.coeffs c - pHalf.coeffs c| ≤ 1 / 10 ^ 8) ∧
      (∀ s, |q.variances s - pHalf.variances s| ≤ 1 / 10 ^ 8) ∧
      (∀ i j, |q.P i j - pHalf.P i j| ≤ 1 / 10 ^ 8)) := by
  have h1 : ∀ s, 0 < pHalf.variances s := fun s => by norm_num [pHalf]
  have h2 : ∀ i j, (0 : ℝ) < pHalf.P i j := fun i j => by norm_num [pHalf]
  have h3 : ∀ j, ∑ i, pHalf.P i j = 1 := fun j => by
    norm_num [pHalf, Fin.sum_univ_two]
  exact ⟨h1, h2, h3, roundTrip_reproduces pHalf h1 h2 h3⟩

lemma opt0_descent : DescentOpt opt0 := by
  intro g s
  dsimp only [opt0]
  by_cases h : g (s - 1) < g s
  · rw [if_pos h]
    exact ⟨rfl, h.le⟩
  · rw [if_neg h]
    exact ⟨rfl, le_refl _⟩

lemma randStarts_const : randStarts (fun _ => (1 : ℚ)) 12345 20
    = List.replicate 20 1 := by
  rw [randStarts]
  rw [show (fun n => (fun _ => (1 : ℚ)) (lcgStream 12345 n)) = fun _ : ℕ => (1 : ℚ)
    from rfl]
  rw [List.map_const', List.length_range]

lemma bestStart_rep : ∀ n, bestStart f0 0 (List.replicate (n + 1) 1) = 1 := by
  intro n
  induction n with
  | zero =>
    show (if f0 1 < f0 (bestStart f0 0 []) then 1 else bestStart f0 0 []) = 1
    rw [show bestStart f0 0 [] = 0 from rfl, if_pos (by norm_num [f0])]
  | succ n ih =>
    show (if f0 1 < f0 (bestStart f0 0 (List.replicate (n + 1) 1)) then 1
      else bestStart f0 0 (List.replicate (n + 1) 1)) = 1
    rw [ih, if_neg (by norm_num [f0])]

/-- C8 counterexample: with the contract-conforming one-step-descent
optimizer opt0 and the objective f0, fit with search_reps = 20 attains
value 3 while fit with search_reps = 0 attains value 0 from the same data,
arguments and seed: selecting the best-valued starting candidate does not
make the fully optimized value monotone in search_reps, because full
convergence from the better-valued start can end in a worse local optimum. -/
theorem search_reps_counterexample :
    DescentOpt opt0 ∧
    (fit opt0 f0 0 (fun _ => 1) 20 12345).value = 3 ∧
    (fit opt0 f0 0 (fun _ => 1) 0 12345).value = 0 ∧
    ¬((3 : ℚ) ≤ 0) := by
  refine ⟨opt0_descent, ?_, ?_, by norm_num⟩
  · have h20 := bestStart_rep 19
    norm_num at h20
    rw [fit, if_neg (by norm_num), randStarts_const, h20]
    dsimp only [opt0]
    rw [if_neg (by norm_num [f0])]
    norm_num [f0]
  · rw [fit, if_pos rfl]
    dsimp only [opt0]
    rw [if_pos (by norm_num [f0])]
    norm_num [f0]

lemma bestStart_le {α : Type} {F : Type} [LinearOrderedField F]
    [DecidableEq F] (f : α → F) (s0 : α) :
    ∀ l : List α, f (bestStart f s0 l) ≤ f s0 := by
  intro l
  induction l with
  | nil => exact le_refl _
  | cons c rest ih =>
    show f (if f c < f (bestStart f s0 rest) then c else bestStart f s0 rest)
      ≤ f s0
    by_cases h : f c < f (bestStart f s0 rest)
    · rw [if_pos h]; exact le_trans h.le ih
    · rw [if_neg h]; exact ih

/-- C8 (amended): under the optimizer descent contract, the value attained
by fit with any search_reps (in particular 20) is at most the objective
value at the default start, because the multi-start search never selects a
candidate worse than the default start; monotonicity against the fully
optimized search_reps = 0 value is not guaranteed. -/
theorem fit_value_le_default {α : Type} {F : Type} [LinearOrderedField F]
    [DecidableEq F] (opt : (α → F) → α → OptOutcome α F)
    (hopt : DescentOpt opt) (f : α → F) (s0 : α) (perturb : ℕ → α)
    (reps seed : ℕ) :
    (fit opt f s0 perturb reps seed).value ≤ f s0 := by
  rw [fit]
  by_cases h : reps = 0
  · rw [if_pos h]
    exact (hopt f s0).2
  · rw [if_neg h]
    exact le_trans (hopt f _).2 (bestStart_le f s0 _)

/-- Witness for the C8 (amended) theorem at the concrete optimizer opt0,
objective f0 and 20 search repetitions. -/
theorem fit_value_le_default_witness :
    DescentOpt opt0 ∧ (fit opt0 f0 0 (fun _ => 1) 20 12345).value ≤ f0 0 :=
  ⟨opt0_descent,
   fit_value_le_default opt0 opt0_descent f0 0 (fun _ => 1) 20 12345⟩

/-- C9: fit is deterministic given the seed: the complete fit result
(optimizer outcome with achieved value and parameters, filtered records and
smoothed records from the final forward and backward pass) is a pure
function of the data, the configuration and the seed, with the random
starting perturbations drawn from the seed through a deterministic
generator; runs with equal seeds and equal inputs produce equal results. -/
theorem fit_deterministic {α : Type} {F : Type} [LinearOrderedField F]
    [DecidableEq F] {k : ℕ} (opt : (α → F) → α → OptOutcome α F)
    (f : α → F) (s0 : α) (perturb : ℕ → α) (reps : ℕ)
    (Pof : α → Fin k → Fin k → F) (pi0of : α → Fin k → F)
    (dof : α → ℕ → Fin k → Fin k → F) (T : ℕ) (seed1 seed2 : ℕ)
    (hseed : seed1 = seed2) :
    fitResult opt f s0 perturb reps seed1 Pof pi0of dof T
      = fitResult opt f s0 perturb reps seed2 Pof pi0of dof T := by
  rw [hseed]

/-- Witness for the C9 theorem at concrete inputs and seed 12345. -/
theorem fit_deterministic_witness :
    (12345 : ℕ) = 12345 ∧
    fitResult opt0 f0 0 (fun _ => 1) 20 12345 (fun _ => Pw) (fun _ => pi0w)
        (fun _ => dw) 1
      = fitResult opt0 f0 0 (fun _ => 1) 20 12345 (fun _ => Pw) (fun _ => pi0w)
        (fun _ => dw) 1 :=
  ⟨rfl, fit_deterministic opt0 f0 0 (fun _ => 1) 20 (fun _ => Pw)
    (fun _ => pi0w) (fun _ => dw) 1 12345 12345 rfl⟩

end Markov
